import Mathlib

/-!
# Verification of a consistent-hashing ring

Shallow embedding of `src/main.py` (class `ConsistentHashRing`): a
consistent-hashing ring with virtual nodes and simple replication.

Modelling conventions:
* Python `int` ring positions are `Nat`; the 64-bit mask `& ((1 <<< 64) - 1)`
  used by the collision probe is `% RING_SPACE` with `RING_SPACE = 2 ^ 64`.
* Python dicts (`vnode_to_node`, `node_to_vnodes`) are association lists in
  insertion order; `dict[k] = v` on a fresh key appends, `pop` erases the
  (unique) entry, reads use `List.lookup`.
* Loops that Python runs without a structural bound (the collision probe and
  the replica-collection walk) take explicit fuel; returning `none` models
  nontermination or an uncaught `KeyError`, both of which are impossible on
  well-formed rings (proved below).
* `bisect.bisect_left` / `bisect.bisect_right` are embedded as the genuine
  binary searches, with fuel `hi - lo` bounded by the list length.
* Exceptions are an explicit error type: `ValueError` for duplicate/missing
  nodes, `RuntimeError("Ring is empty")` as `emptyRing`.
* The injected hash function is an abstract `String → Nat`, as the Python
  class accepts any callable; `float` division in the moved-keys statistic
  is embedded as exact rational division.
-/

namespace HashRing

/-- Errors raised by the ring operations (`ValueError` on duplicate/missing
node, `RuntimeError` on an empty ring; `internalError` stands for the
`KeyError`/`IndexError` paths that cannot be reached through the public API
on a well-formed ring). -/
inductive RingError where
  | duplicateNode
  | nodeNotFound
  | emptyRing
  | internalError
  deriving DecidableEq, Repr

/-- The 64-bit ring address space: positions wrap modulo `2 ^ 64`
(`(pos + 1) & ((1 <<< 64) - 1)` in the source). -/
def RING_SPACE : Nat := 2 ^ 64

/-- State of `ConsistentHashRing`: configuration plus the three mutable
components (`positions`, `vnode_to_node`, `node_to_vnodes`). -/
structure Ring where
  replicas_per_node : Nat
  hash : String → Nat
  replication_factor : Nat
  positions : List Nat
  vnode_to_node : List (Nat × String)
  node_to_vnodes : List (String × List Nat)

/-- `ConsistentHashRing.__init__`: asserts both counts positive, starts with
empty `positions`, `vnode_to_node`, `node_to_vnodes`; `none` models the
`assert` failing. -/
def mkRing (replicas_per_node : Nat) (hash : String → Nat)
    (replication_factor : Nat) : Option Ring :=
  if 0 < replicas_per_node ∧ 0 < replication_factor then
    some { replicas_per_node := replicas_per_node
           hash := hash
           replication_factor := replication_factor
           positions := []
           vnode_to_node := []
           node_to_vnodes := [] }
  else none

/-- `bisect.bisect_left`, as the standard binary search: `lo`/`hi` window,
fuel bounds the iteration count (`hi - lo` shrinks every step, so fuel
`hi - lo` always suffices). -/
def bisect_left_aux (a : List Nat) (x : Nat) : Nat → Nat → Nat → Nat
  | 0, lo, _ => lo
  | fuel + 1, lo, hi =>
    if lo < hi then
      let mid := (lo + hi) / 2
      if a.getD mid 0 < x then bisect_left_aux a x fuel (mid + 1) hi
      else bisect_left_aux a x fuel lo mid
    else lo

/-- `bisect.bisect_left(a, x)` over the whole list. -/
def bisect_left (a : List Nat) (x : Nat) : Nat :=
  bisect_left_aux a x a.length 0 a.length

/-- `bisect.bisect_right`, binary search with the mirrored comparison. -/
def bisect_right_aux (a : List Nat) (x : Nat) : Nat → Nat → Nat → Nat
  | 0, lo, _ => lo
  | fuel + 1, lo, hi =>
    if lo < hi then
      let mid := (lo + hi) / 2
      if x < a.getD mid 0 then bisect_right_aux a x fuel lo mid
      else bisect_right_aux a x fuel (mid + 1) hi
    else lo

/-- `bisect.bisect_right(a, x)` over the whole list. -/
def bisect_right (a : List Nat) (x : Nat) : Nat :=
  bisect_right_aux a x a.length 0 a.length

/-- `bisect.insort(self.positions, pos)`: insert at the `bisect_right`
insertion point. -/
def insort (a : List Nat) (x : Nat) : List Nat :=
  a.insertIdx (bisect_right a x) x

/-- The collision probe of `add_node`:
`while pos in self.vnode_to_node: pos = (pos + 1) & ((1 <<< 64) - 1)`.
Fuel is the size of the address space; `none` models the (theoretical)
nontermination on a saturated ring. -/
def probe (occupied : List Nat) : Nat → Nat → Option Nat
  | _, 0 => none
  | pos, fuel + 1 =>
    if pos ∈ occupied then probe occupied ((pos + 1) % RING_SPACE) fuel
    else some pos

/-- The per-replica loop body of `add_node`: for replica indices
`i, i+1, …` hash `f"{node_id}#{replica_idx}"`, probe past collisions,
`insort` into `positions`, record in `vnode_to_node` and in the
accumulating vnode list. -/
def add_loop (hash : String → Nat) (node_id : String) :
    Nat → Nat → List Nat → List (Nat × String) → List Nat →
    Option (List Nat × List (Nat × String) × List Nat)
  | 0, _, ps, vn2n, acc => some (ps, vn2n, acc)
  | count + 1, i, ps, vn2n, acc =>
    match probe (vn2n.map Prod.fst) (hash (node_id ++ "#" ++ toString i))
        RING_SPACE with
    | none => none
    | some pos =>
        add_loop hash node_id count (i + 1) (insort ps pos)
          (vn2n ++ [(pos, node_id)]) (acc ++ [pos])

/-- `add_node(node_id)`: duplicate check, then `replicas_per_node` rounds of
hash/probe/insert, finally `node_to_vnodes[node_id] = vnodes`. The outer
`Option` is `none` only when a probe would not terminate; the inner error is
the raised `ValueError` (state returned unchanged, as the check precedes all
mutation). -/
def add_node (r : Ring) (node_id : String) :
    Option (Ring × Option RingError) :=
  if node_id ∈ r.node_to_vnodes.map Prod.fst then
    some (r, some .duplicateNode)
  else
    match add_loop r.hash node_id r.replicas_per_node 0 r.positions
        r.vnode_to_node [] with
    | none => none
    | some (ps, vn2n, vnodes) =>
        some ({ r with positions := ps
                       vnode_to_node := vn2n
                       node_to_vnodes := r.node_to_vnodes ++ [(node_id, vnodes)] },
              none)

/-- One step of `remove_node`'s loop: `bisect_left` into `positions`, pop the
located index only if it holds exactly `pos` (defensive check), then
`vnode_to_node.pop(pos, None)`. -/
def remove_pos (ps : List Nat) (pos : Nat) : List Nat :=
  let idx := bisect_left ps pos
  if h : idx < ps.length then
    if ps.get ⟨idx, h⟩ = pos then ps.eraseIdx idx else ps
  else ps

/-- The loop of `remove_node` over the popped vnode list: each owned
position is deleted from `positions` (via `remove_pos`) and popped from
`vnode_to_node`. -/
def remove_fold (vnodes : List Nat)
    (st : List Nat × List (Nat × String)) :
    List Nat × List (Nat × String) :=
  vnodes.foldl
    (fun st pos => (remove_pos st.1 pos, st.2.eraseP (fun q => q.1 == pos)))
    st

/-- `remove_node(node_id)`: pop the node's vnode list (raising `ValueError`
without mutation when absent), then delete every owned position from
`positions` and `vnode_to_node`. -/
def remove_node (r : Ring) (node_id : String) : Ring × Option RingError :=
  match r.node_to_vnodes.lookup node_id with
  | none => (r, some .nodeNotFound)
  | some vnodes =>
      let st := remove_fold vnodes (r.positions, r.vnode_to_node)
      ({ r with positions := st.1
                vnode_to_node := st.2
                node_to_vnodes := r.node_to_vnodes.eraseP (fun q => q.1 == node_id) },
       none)

/-- `list_nodes()`: the registered physical node identifiers in insertion
order. -/
def list_nodes (r : Ring) : List String :=
  r.node_to_vnodes.map Prod.fst

/-- `_find_vnode_index(key_hash)`: `RuntimeError` on an empty ring, else
`bisect_left` and wrap to index 0 when past the end. -/
def find_vnode_index (r : Ring) (key_hash : Nat) : Except RingError Nat :=
  if r.positions = [] then .error .emptyRing
  else
    let idx := bisect_left r.positions key_hash
    .ok (if idx = r.positions.length then 0 else idx)

/-- The collection walk of `get_nodes_for_key`:
`while len(chosen) < replication_factor and len(seen) < len(node_to_vnodes)`,
read the owner of `positions[idx]`, append to `chosen`/`seen` if unseen, step
`idx = (idx + 1) % len(positions)`. `seen` is a Python `set`, embedded as the
duplicate-free list of first occurrences. Fuel bounds the walk; `none` models
divergence (guard never falsified) or a `KeyError` on a dangling position,
neither reachable on a well-formed ring. -/
def collect_loop (ps : List Nat) (vn2n : List (Nat × String))
    (num_nodes rf : Nat) :
    Nat → Nat → List String → List String → Option (List String)
  | fuel, idx, chosen, seen =>
    if chosen.length < rf ∧ seen.length < num_nodes then
      match fuel with
      | 0 => none
      | fuel + 1 =>
          match vn2n.lookup (ps.getD idx 0) with
          | none => none
          | some node_id =>
              if node_id ∈ seen then
                collect_loop ps vn2n num_nodes rf fuel
                  ((idx + 1) % ps.length) chosen seen
              else
                collect_loop ps vn2n num_nodes rf fuel
                  ((idx + 1) % ps.length) (chosen ++ [node_id])
                  (seen ++ [node_id])
    else some chosen

/-- `get_nodes_for_key(key)`: empty-ring check, hash the key, locate the
clockwise successor, walk the ring collecting distinct owners. The Python
loop runs at most `len(positions)` productive iterations plus one final
guard evaluation, so that is the fuel. -/
def get_nodes_for_key (r : Ring) (key : String) :
    Except RingError (List String) :=
  if r.positions = [] then .error .emptyRing
  else
    match find_vnode_index r (r.hash key) with
    | .error e => .error e
    | .ok idx =>
        match collect_loop r.positions r.vnode_to_node
            r.node_to_vnodes.length r.replication_factor
            r.positions.length idx [] [] with
        | none => .error .internalError
        | some chosen => .ok chosen

/-- `get_primary_node(key)`: element 0 of `get_nodes_for_key(key)`
(`IndexError` on an empty result is `internalError`). -/
def get_primary_node (r : Ring) (key : String) : Except RingError String :=
  match get_nodes_for_key r key with
  | .error e => .error e
  | .ok [] => .error .internalError
  | .ok (x :: _) => .ok x

/-- `Counter` update `dist[node] += 1`: bump the (unique) existing entry or
append a fresh one with count 1. -/
def counter_incr : List (String × Nat) → String → List (String × Nat)
  | [], x => [(x, 1)]
  | (k, c) :: rest, x =>
      if k = x then (k, c + 1) :: rest else (k, c) :: counter_incr rest x

/-- The loop of `key_distribution`: count primaries per node, propagating
any error raised by `get_primary_node`. -/
def key_distribution_loop (r : Ring) :
    List String → List (String × Nat) → Except RingError (List (String × Nat))
  | [], dist => .ok dist
  | k :: ks, dist =>
      match get_primary_node r k with
      | .error e => .error e
      | .ok node => key_distribution_loop r ks (counter_incr dist node)

/-- `key_distribution(keys)`: a `Counter` mapping each node to the number of
keys whose primary it is. -/
def key_distribution (r : Ring) (keys : List String) :
    Except RingError (List (String × Nat)) :=
  key_distribution_loop r keys []

/-- The loop of `moved_keys_ratio`: count keys whose current primary differs
from `old_mapping.get(k)` (an absent entry, Python `None`, never equals a
node string). -/
def moved_loop (r : Ring) (old_mapping : List (String × String)) :
    List String → Nat → Nat → Except RingError (Nat × Nat)
  | [], moved, total => .ok (moved, total)
  | k :: ks, moved, total =>
      match get_primary_node r k with
      | .error e => .error e
      | .ok new_node =>
          moved_loop r old_mapping ks
            (if old_mapping.lookup k = some new_node then moved else moved + 1)
            (total + 1)

/-- `moved_keys_ratio(keys, old_mapping)`: `moved / total if total else 0.0`,
with Python float division embedded as exact rational division. -/
def moved_keys_ratio (r : Ring) (keys : List String)
    (old_mapping : List (String × String)) : Except RingError ℚ :=
  match moved_loop r old_mapping keys 0 0 with
  | .error e => .error e
  | .ok (moved, total) =>
      .ok (if total = 0 then 0 else (moved : ℚ) / (total : ℚ))

/-- `k`-fold application of the probe step `pos ↦ (pos + 1) % RING_SPACE`
starting from the initial hash value. -/
def advance (h : Nat) : Nat → Nat
  | 0 => h
  | k + 1 => (advance h k + 1) % RING_SPACE

/-- What the collision probe guarantees: the resulting position is free, and
it is the initial hash advanced by `+1 mod 2^64` some number of times, every
strictly earlier stop being occupied. -/
def ProbeSpec (occupied : List Nat) (h p : Nat) : Prop :=
  p ∉ occupied ∧ ∃ k, p = advance h k ∧ ∀ j, j < k → advance h j ∈ occupied

/-- The Boolean "this key moved" test of `moved_keys_ratio`:
`old_mapping.get(k) != new_node`, where an absent entry (Python `None`)
never equals a node identifier, and a key that cannot be placed counts as
moved (that case raises before the comparison on a real ring). -/
def moved_key (r : Ring) (old_mapping : List (String × String))
    (k : String) : Bool :=
  match get_primary_node r k with
  | .ok n => !(old_mapping.lookup k == some n)
  | .error _ => true

/-- Well-formedness of a ring state: the documented invariants of the class
(`positions` sorted strictly, in bijection with the keys of
`vnode_to_node`; `node_to_vnodes` lists partition `positions` with correct
ownership; configuration counts positive as asserted by `__init__`). All
conjuncts are bounded, hence decidable. -/
def WF (r : Ring) : Prop :=
  0 < r.replicas_per_node ∧
  0 < r.replication_factor ∧
  r.positions.Sorted (· < ·) ∧
  (r.vnode_to_node.map Prod.fst).Nodup ∧
  (∀ p ∈ r.positions, p ∈ r.vnode_to_node.map Prod.fst) ∧
  (∀ q ∈ r.vnode_to_node, q.1 ∈ r.positions) ∧
  (r.node_to_vnodes.map Prod.fst).Nodup ∧
  (∀ e ∈ r.node_to_vnodes,
    e.2 ≠ [] ∧ e.2.Nodup ∧ ∀ p ∈ e.2, r.vnode_to_node.lookup p = some e.1) ∧
  (∀ p ∈ r.positions, ∃ e ∈ r.node_to_vnodes, p ∈ e.2) ∧
  (∀ q ∈ r.vnode_to_node, q.2 ∈ r.node_to_vnodes.map Prod.fst)

instance (r : Ring) : Decidable (WF r) := by
  unfold WF; infer_instance

/-- Ring states reachable from a freshly constructed ring by any sequence of
`add_node` / `remove_node` calls (the queries do not mutate the state, so
they need no constructor here; a failed mutation returns the state
unchanged, which both mutation constructors cover). -/
inductive Reachable : Ring → Prop where
  | init : ∀ n h k r, mkRing n h k = some r → Reachable r
  | add : ∀ r x out, Reachable r → add_node r x = some out → Reachable out.1
  | remove : ∀ r x, Reachable r → Reachable (remove_node r x).1

/-! Concrete fixtures used to exercise the theorems on closed inputs: a
deterministic stand-in hash function (the class accepts any callable), the
freshly constructed empty ring, the ring after one `add_node("A")`, and a
two-node ring. -/

/-- A deterministic stand-in hash function for concrete evaluation. -/
def sampleHash : String → Nat := fun s => s.length

/-- `ConsistentHashRing(replicas_per_node=1, hash_func=sampleHash,
replication_factor=1)` freshly constructed. -/
def emptySample : Ring :=
  { replicas_per_node := 1
    hash := sampleHash
    replication_factor := 1
    positions := []
    vnode_to_node := []
    node_to_vnodes := [] }

/-- `emptySample` after `add_node("A")`: the single replica key `"A#0"`
hashes to 3 under `sampleHash`. -/
def addedSample : Ring :=
  { replicas_per_node := 1
    hash := sampleHash
    replication_factor := 1
    positions := [3]
    vnode_to_node := [(3, "A")]
    node_to_vnodes := [("A", [3])] }

/-- A two-node ring state with one virtual node per node. -/
def sampleRing : Ring :=
  { replicas_per_node := 1
    hash := sampleHash
    replication_factor := 2
    positions := [3, 5]
    vnode_to_node := [(3, "A"), (5, "B")]
    node_to_vnodes := [("A", [3]), ("B", [5])] }

/-! ## Association-list helpers

Python dicts are embedded as association lists; these lemmas relate
`List.lookup` with key membership, append (dict insertion of a fresh key)
and `eraseP` (dict `pop`). -/

section AssocLemmas

variable {α β : Type} [BEq α] [LawfulBEq α]

theorem lookup_eq_none_iff (l : List (α × β)) (k : α) :
    l.lookup k = none ↔ k ∉ l.map Prod.fst := by
  induction l with
  | nil => simp
  | cons q rest ih =>
      obtain ⟨a, b⟩ := q
      by_cases h : k = a
      · subst h
        simp [List.lookup]
      · simp [List.lookup, beq_false_of_ne h, h, ih]

theorem lookup_mem {l : List (α × β)} {k : α} {v : β}
    (h : l.lookup k = some v) : (k, v) ∈ l := by
  induction l with
  | nil => simp [List.lookup] at h
  | cons q rest ih =>
      obtain ⟨a, b⟩ := q
      by_cases hka : k = a
      · subst hka
        simp [List.lookup] at h
        simp [h]
      · simp only [List.lookup, beq_false_of_ne hka] at h
        exact List.mem_cons_of_mem _ (ih h)

theorem mem_keys_of_lookup {l : List (α × β)} {k : α} {v : β}
    (h : l.lookup k = some v) : k ∈ l.map Prod.fst := by
  have := lookup_mem h
  simpa using List.mem_map_of_mem Prod.fst this

theorem lookup_isSome_of_mem_keys {l : List (α × β)} {k : α}
    (h : k ∈ l.map Prod.fst) : ∃ v, l.lookup k = some v := by
  cases hv : l.lookup k with
  | none => exact absurd h ((lookup_eq_none_iff l k).mp hv)
  | some v => exact ⟨v, rfl⟩

theorem lookup_of_mem_nodup {l : List (α × β)}
    (hnd : (l.map Prod.fst).Nodup) {k : α} {v : β}
    (h : (k, v) ∈ l) : l.lookup k = some v := by
  induction l with
  | nil => simp at h
  | cons q rest ih =>
      obtain ⟨a, b⟩ := q
      simp only [List.map_cons, List.nodup_cons] at hnd
      rcases List.mem_cons.mp h with heq | hmem
      · cases heq
        simp [List.lookup]
      · by_cases hka : k = a
        · subst hka
          exact absurd (by simpa using List.mem_map_of_mem Prod.fst hmem) hnd.1
        · simp only [List.lookup, beq_false_of_ne hka]
          exact ih hnd.2 hmem

theorem lookup_append_left {l₁ : List (α × β)} (l₂ : List (α × β))
    {k : α} {v : β} (h : l₁.lookup k = some v) :
    (l₁ ++ l₂).lookup k = some v := by
  induction l₁ with
  | nil => simp [List.lookup] at h
  | cons q rest ih =>
      obtain ⟨a, b⟩ := q
      by_cases hka : k = a
      · subst hka
        simpa [List.lookup] using h
      · simp only [List.lookup, beq_false_of_ne hka] at h ⊢
        exact ih h

theorem lookup_append_right {l₁ : List (α × β)} (l₂ : List (α × β))
    {k : α} (h : k ∉ l₁.map Prod.fst) :
    (l₁ ++ l₂).lookup k = l₂.lookup k := by
  induction l₁ with
  | nil => rfl
  | cons q rest ih =>
      obtain ⟨a, b⟩ := q
      simp only [List.map_cons, List.mem_cons, not_or] at h
      simp only [List.cons_append, List.lookup, beq_false_of_ne h.1]
      exact ih h.2

theorem keys_eraseP (l : List (α × β)) (k : α) :
    (l.eraseP (fun q => q.1 == k)).map Prod.fst = (l.map Prod.fst).erase k := by
  induction l with
  | nil => rfl
  | cons q rest ih =>
      obtain ⟨a, b⟩ := q
      by_cases hak : a = k
      · subst hak
        simp [List.eraseP_cons, List.erase_cons]
      · simp [List.eraseP_cons, List.erase_cons, beq_false_of_ne hak, hak, ih]

theorem lookup_eraseP_ne (l : List (α × β)) {k k' : α} (h : k' ≠ k) :
    (l.eraseP (fun q => q.1 == k)).lookup k' = l.lookup k' := by
  induction l with
  | nil => rfl
  | cons q rest ih =>
      obtain ⟨a, b⟩ := q
      by_cases hak : a = k
      · subst hak
        simp only [List.eraseP_cons, beq_self_eq_true, cond_true]
        simp [List.lookup, beq_false_of_ne h]
      · simp only [List.eraseP_cons, beq_false_of_ne hak, cond_false]
        by_cases hka : k' = a
        · subst hka
          simp [List.lookup]
        · simp only [List.lookup, beq_false_of_ne hka]
          exact ih

theorem lookup_map_const {l : List α} {k : α} (x : β) (h : k ∈ l) :
    (l.map (fun p => (p, x))).lookup k = some x := by
  induction l with
  | nil => simp at h
  | cons a rest ih =>
      by_cases hka : k = a
      · subst hka
        simp [List.lookup]
      · rcases List.mem_cons.mp h with heq | hmem
        · exact absurd heq hka
        · simp only [List.map_cons, List.lookup, beq_false_of_ne hka]
          exact ih hmem

omit [BEq α] [LawfulBEq α] in
theorem keys_map_const (l : List α) (x : β) :
    (l.map (fun p => (p, x))).map Prod.fst = l := by
  simp [List.map_map, Function.comp_def]

end AssocLemmas

/-! ## Sorted lists and binary search -/

theorem sorted_nodup {l : List Nat} (h : l.Sorted (· < ·)) : l.Nodup :=
  h.imp (fun hl => Nat.ne_of_lt hl)

theorem sorted_getD_lt {l : List Nat} (h : l.Sorted (· < ·)) {i j : Nat}
    (hij : i < j) (hj : j < l.length) : l.getD i 0 < l.getD j 0 := by
  rw [List.getD_eq_getElem l 0 (by omega), List.getD_eq_getElem l 0 hj]
  exact List.pairwise_iff_getElem.mp h i j (by omega) hj hij

theorem sorted_getD_le {l : List Nat} (h : l.Sorted (· < ·)) {i j : Nat}
    (hij : i ≤ j) (hj : j < l.length) : l.getD i 0 ≤ l.getD j 0 := by
  rcases Nat.lt_or_ge i j with h' | h'
  · exact Nat.le_of_lt (sorted_getD_lt h h' hj)
  · have : i = j := by omega
    subst this
    exact le_refl _

theorem bisect_left_aux_spec {a : List Nat} {x : Nat} (hs : a.Sorted (· < ·)) :
    ∀ fuel lo hi, lo ≤ hi → hi ≤ a.length → hi - lo ≤ fuel →
      (∀ k, k < lo → a.getD k 0 < x) →
      (∀ k, hi ≤ k → k < a.length → x ≤ a.getD k 0) →
      lo ≤ bisect_left_aux a x fuel lo hi ∧
      bisect_left_aux a x fuel lo hi ≤ hi ∧
      (∀ k, k < bisect_left_aux a x fuel lo hi → a.getD k 0 < x) ∧
      (∀ k, bisect_left_aux a x fuel lo hi ≤ k → k < a.length →
        x ≤ a.getD k 0) := by
  intro fuel
  induction fuel with
  | zero =>
      intro lo hi hlohi _ hfuel hlo hhi2
      have heq : lo = hi := by omega
      exact ⟨le_refl _, heq ▸ le_refl _, hlo, fun k hk hk2 => hhi2 k (heq ▸ hk) hk2⟩
  | succ fuel ih =>
      intro lo hi hlohi hhi hfuel hlo hhi2
      by_cases hlt : lo < hi
      · rw [bisect_left_aux]
        simp only [if_pos hlt]
        by_cases hcmp : a.getD ((lo + hi) / 2) 0 < x
        · simp only [if_pos hcmp]
          obtain ⟨h1, h2, h3, h4⟩ := ih ((lo + hi) / 2 + 1) hi (by omega) hhi
            (by omega)
            (fun k hk => by
              rcases Nat.lt_or_ge k lo with h' | h'
              · exact hlo k h'
              · exact Nat.lt_of_le_of_lt
                  (sorted_getD_le hs (by omega) (by omega)) hcmp)
            hhi2
          exact ⟨by omega, h2, h3, h4⟩
        · simp only [if_neg hcmp]
          obtain ⟨h1, h2, h3, h4⟩ := ih lo ((lo + hi) / 2) (by omega) (by omega)
            (by omega) hlo
            (fun k hk hk2 =>
              le_trans (Nat.le_of_not_lt hcmp) (sorted_getD_le hs hk hk2))
          exact ⟨h1, by omega, h3, h4⟩
      · rw [bisect_left_aux]
        simp only [if_neg hlt]
        have heq : lo = hi := by omega
        exact ⟨le_refl _, heq ▸ le_refl _, hlo, fun k hk hk2 => hhi2 k (heq ▸ hk) hk2⟩

theorem bisect_left_spec (a : List Nat) (x : Nat) (hs : a.Sorted (· < ·)) :
    bisect_left a x ≤ a.length ∧
    (∀ k, k < bisect_left a x → a.getD k 0 < x) ∧
    (∀ k, bisect_left a x ≤ k → k < a.length → x ≤ a.getD k 0) := by
  obtain ⟨h1, h2, h3, h4⟩ := bisect_left_aux_spec hs a.length 0 a.length
    (Nat.zero_le _) (le_refl _) (by omega)
    (fun k hk => absurd hk (Nat.not_lt_zero k))
    (fun k hk hk2 => absurd hk2 (by omega))
  exact ⟨h2, h3, h4⟩

theorem bisect_right_aux_spec {a : List Nat} {x : Nat} (hs : a.Sorted (· < ·)) :
    ∀ fuel lo hi, lo ≤ hi → hi ≤ a.length → hi - lo ≤ fuel →
      (∀ k, k < lo → a.getD k 0 ≤ x) →
      (∀ k, hi ≤ k → k < a.length → x < a.getD k 0) →
      lo ≤ bisect_right_aux a x fuel lo hi ∧
      bisect_right_aux a x fuel lo hi ≤ hi ∧
      (∀ k, k < bisect_right_aux a x fuel lo hi → a.getD k 0 ≤ x) ∧
      (∀ k, bisect_right_aux a x fuel lo hi ≤ k → k < a.length →
        x < a.getD k 0) := by
  intro fuel
  induction fuel with
  | zero =>
      intro lo hi hlohi _ hfuel hlo hhi2
      have heq : lo = hi := by omega
      exact ⟨le_refl _, heq ▸ le_refl _, hlo, fun k hk hk2 => hhi2 k (heq ▸ hk) hk2⟩
  | succ fuel ih =>
      intro lo hi hlohi hhi hfuel hlo hhi2
      by_cases hlt : lo < hi
      · rw [bisect_right_aux]
        simp only [if_pos hlt]
        by_cases hcmp : x < a.getD ((lo + hi) / 2) 0
        · simp only [if_pos hcmp]
          obtain ⟨h1, h2, h3, h4⟩ := ih lo ((lo + hi) / 2) (by omega) (by omega)
            (by omega) hlo
            (fun k hk hk2 =>
              Nat.lt_of_lt_of_le hcmp (sorted_getD_le hs hk hk2))
          exact ⟨h1, by omega, h3, h4⟩
        · simp only [if_neg hcmp]
          obtain ⟨h1, h2, h3, h4⟩ := ih ((lo + hi) / 2 + 1) hi (by omega) hhi
            (by omega)
            (fun k hk => by
              rcases Nat.lt_or_ge k lo with h' | h'
              · exact hlo k h'
              · exact le_trans (sorted_getD_le hs (by omega) (by omega))
                  (Nat.le_of_not_lt hcmp))
            hhi2
          exact ⟨by omega, h2, h3, h4⟩
      · rw [bisect_right_aux]
        simp only [if_neg hlt]
        have heq : lo = hi := by omega
        exact ⟨le_refl _, heq ▸ le_refl _, hlo, fun k hk hk2 => hhi2 k (heq ▸ hk) hk2⟩

theorem bisect_right_spec (a : List Nat) (x : Nat) (hs : a.Sorted (· < ·)) :
    bisect_right a x ≤ a.length ∧
    (∀ k, k < bisect_right a x → a.getD k 0 ≤ x) ∧
    (∀ k, bisect_right a x ≤ k → k < a.length → x < a.getD k 0) := by
  obtain ⟨h1, h2, h3, h4⟩ := bisect_right_aux_spec hs a.length 0 a.length
    (Nat.zero_le _) (le_refl _) (by omega)
    (fun k hk => absurd hk (Nat.not_lt_zero k))
    (fun k hk hk2 => absurd hk2 (by omega))
  exact ⟨h2, h3, h4⟩

/-! ## `insort` and position removal -/

theorem sorted_insertIdx {l : List Nat} {x : Nat} {n : Nat} (hn : n ≤ l.length)
    (hs : l.Sorted (· < ·))
    (h1 : ∀ k, k < n → l.getD k 0 < x)
    (h2 : ∀ k, n ≤ k → k < l.length → x < l.getD k 0) :
    (l.insertIdx n x).Sorted (· < ·) := by
  induction l generalizing n with
  | nil =>
      have : n = 0 := by simpa using hn
      subst this
      simp
  | cons a t ih =>
      cases n with
      | zero =>
          simp only [List.insertIdx_zero]
          rw [List.sorted_cons]
          refine ⟨fun b hb => ?_, hs⟩
          obtain ⟨i, hi, rfl⟩ := List.mem_iff_getElem.mp hb
          have := h2 i (Nat.zero_le _) hi
          rwa [List.getD_eq_getElem _ 0 hi] at this
      | succ n =>
          simp only [List.insertIdx_succ_cons]
          rw [List.sorted_cons] at hs ⊢
          have hn' : n ≤ t.length := by simpa using hn
          refine ⟨fun b hb => ?_, ?_⟩
          · rcases (List.mem_insertIdx hn').mp hb with rfl | hbt
            · simpa using h1 0 (Nat.succ_pos n)
            · exact hs.1 b hbt
          · refine ih hn' hs.2 (fun k hk => ?_) (fun k hk hk2 => ?_)
            · simpa using h1 (k + 1) (by omega)
            · simpa using h2 (k + 1) (by omega) (by simpa using Nat.succ_lt_succ hk2)

theorem mem_insort {ps : List Nat} {x : Nat} (hs : ps.Sorted (· < ·))
    (a : Nat) : a ∈ insort ps x ↔ a = x ∨ a ∈ ps :=
  List.mem_insertIdx (bisect_right_spec ps x hs).1

theorem insort_sorted {ps : List Nat} {x : Nat} (hs : ps.Sorted (· < ·))
    (hx : x ∉ ps) : (insort ps x).Sorted (· < ·) := by
  obtain ⟨hle, hbefore, hafter⟩ := bisect_right_spec ps x hs
  refine sorted_insertIdx hle hs (fun k hk => ?_) hafter
  have hklen : k < ps.length := by omega
  have hmem : ps.getD k 0 ∈ ps := by
    rw [List.getD_eq_getElem _ 0 hklen]
    exact List.getElem_mem hklen
  exact lt_of_le_of_ne (hbefore k hk) (fun he => hx (he ▸ hmem))

theorem eraseIdx_eq_erase {pos : Nat} (l : List Nat) :
    ∀ i, i < l.length →
      (∀ k, k < i → l.getD k 0 ≠ pos) → l.getD i 0 = pos →
      l.eraseIdx i = l.erase pos := by
  induction l with
  | nil => intro i h; simp at h
  | cons a t ih =>
      intro i hi hbefore hat
      cases i with
      | zero =>
          simp only [List.getD_cons_zero] at hat
          subst hat
          simp [List.erase_cons]
      | succ i =>
          have ha : a ≠ pos := by simpa using hbefore 0 (Nat.succ_pos i)
          simp only [List.getD_cons_succ] at hat
          simp only [List.eraseIdx_cons_succ, List.erase_cons,
            beq_false_of_ne ha, if_neg]
          · congr 1
            exact ih i (by simpa using hi)
              (fun k hk => by simpa using hbefore (k + 1) (by omega)) hat

theorem remove_pos_eq_erase {ps : List Nat} {pos : Nat}
    (hs : ps.Sorted (· < ·)) : remove_pos ps pos = ps.erase pos := by
  obtain ⟨hle, hbefore, hafter⟩ := bisect_left_spec ps pos hs
  simp only [remove_pos]
  split
  · rename_i h
    split
    · rename_i heq
      refine eraseIdx_eq_erase ps _ h
        (fun k hk => Nat.ne_of_lt (hbefore k hk)) ?_
      rw [List.getD_eq_getElem _ 0 h]
      exact heq
    · rename_i heq
      have hnotmem : pos ∉ ps := by
        intro hmem
        obtain ⟨i, hi, hip⟩ := List.mem_iff_getElem.mp hmem
        rcases Nat.lt_or_ge i (bisect_left ps pos) with h' | h'
        · have := hbefore i h'
          rw [List.getD_eq_getElem _ 0 hi] at this
          omega
        · rcases Nat.eq_or_lt_of_le h' with h'' | h''
          · refine heq ?_
            rw [List.get_eq_getElem]
            subst h''
            exact hip
          · have hlt := sorted_getD_lt hs h'' hi
            have hle2 := hafter (bisect_left ps pos) (le_refl _) h
            rw [List.getD_eq_getElem _ 0 hi] at hlt
            omega
      rw [List.erase_of_not_mem hnotmem]
  · rename_i h
    have hnotmem : pos ∉ ps := by
      intro hmem
      obtain ⟨i, hi, hip⟩ := List.mem_iff_getElem.mp hmem
      have := hbefore i (by omega)
      rw [List.getD_eq_getElem _ 0 hi] at this
      omega
    rw [List.erase_of_not_mem hnotmem]

/-! ## The collision probe and the `add_node` loop -/

theorem advance_succ_shift (h : Nat) (k : Nat) :
    advance h (k + 1) = advance ((h + 1) % RING_SPACE) k := by
  induction k with
  | zero => rfl
  | succ k ih =>
      show (advance h (k + 1) + 1) % RING_SPACE =
        (advance ((h + 1) % RING_SPACE) k + 1) % RING_SPACE
      rw [ih]

theorem probe_sound (occupied : List Nat) :
    ∀ fuel h p, probe occupied h fuel = some p → ProbeSpec occupied h p := by
  intro fuel
  induction fuel with
  | zero =>
      intro h p hp
      simp [probe] at hp
  | succ fuel ih =>
      intro h p hp
      rw [probe] at hp
      by_cases hmem : h ∈ occupied
      · rw [if_pos hmem] at hp
        obtain ⟨hfree, k, hk, hbefore⟩ := ih _ p hp
        refine ⟨hfree, k + 1, ?_, ?_⟩
        · rw [advance_succ_shift]
          exact hk
        · intro j hj
          cases j with
          | zero => exact hmem
          | succ j =>
              rw [advance_succ_shift]
              exact hbefore j (by omega)
      · rw [if_neg hmem] at hp
        injection hp with hp
        subst hp
        exact ⟨hmem, 0, rfl, fun j hj => absurd hj (Nat.not_lt_zero j)⟩

theorem add_loop_spec (hash : String → Nat) (x : String) :
    ∀ count i ps vn2n acc out,
      add_loop hash x count i ps vn2n acc = some out →
      ∃ fresh : List Nat,
        fresh.length = count ∧
        out.2.2 = acc ++ fresh ∧
        out.2.1 = vn2n ++ fresh.map (fun p => (p, x)) ∧
        out.1 = fresh.foldl insort ps ∧
        ∀ j, ∀ hj : j < fresh.length,
          ProbeSpec (vn2n.map Prod.fst ++ fresh.take j)
            (hash (x ++ "#" ++ toString (i + j))) fresh[j] := by
  intro count
  induction count with
  | zero =>
      intro i ps vn2n acc out hout
      rw [add_loop] at hout
      injection hout with hout
      subst hout
      exact ⟨[], rfl, by simp, by simp, rfl,
        fun j hj => absurd hj (Nat.not_lt_zero j)⟩
  | succ count ih =>
      intro i ps vn2n acc out hout
      rw [add_loop] at hout
      cases hprobe : probe (vn2n.map Prod.fst)
          (hash (x ++ "#" ++ toString i)) RING_SPACE with
      | none => rw [hprobe] at hout; cases hout
      | some pos =>
          rw [hprobe] at hout
          obtain ⟨fresh', hlen, hacc, hvn, hps, hspec⟩ :=
            ih (i + 1) (insort ps pos) (vn2n ++ [(pos, x)]) (acc ++ [pos])
              out hout
          refine ⟨pos :: fresh', by simpa using hlen, ?_, ?_, ?_, ?_⟩
          · rw [hacc]
            simp
          · rw [hvn]
            simp
          · rw [hps]
            rfl
          · intro j hj
            cases j with
            | zero =>
                simpa using probe_sound _ _ _ _ hprobe
            | succ j =>
                have hj' : j < fresh'.length := by simpa using hj
                have := hspec j hj'
                simp only [List.map_append, List.map_cons, List.map_nil] at this
                simp only [List.getElem_cons_succ, List.take_succ_cons]
                have harg : i + 1 + j = i + (j + 1) := by omega
                rw [harg] at this
                simpa [List.append_assoc] using this

theorem foldl_insort_spec :
    ∀ (fresh : List Nat) (ps : List Nat), ps.Sorted (· < ·) →
      (∀ j, ∀ hj : j < fresh.length,
        fresh[j] ∉ ps ∧ fresh[j] ∉ fresh.take j) →
      (fresh.foldl insort ps).Sorted (· < ·) ∧
      ∀ p, p ∈ fresh.foldl insort ps ↔ p ∈ ps ∨ p ∈ fresh := by
  intro fresh
  induction fresh with
  | nil =>
      intro ps hs _
      exact ⟨hs, by simp⟩
  | cons pos rest ih =>
      intro ps hs hfr
      have hpos : pos ∉ ps := (hfr 0 (by simp)).1
      have hs1 : (insort ps pos).Sorted (· < ·) := insort_sorted hs hpos
      have hrest : ∀ j, ∀ hj : j < rest.length,
          rest[j] ∉ insort ps pos ∧ rest[j] ∉ rest.take j := by
        intro j hj
        have h2 := hfr (j + 1) (by simpa using Nat.succ_lt_succ hj)
        simp only [List.getElem_cons_succ, List.take_succ_cons,
          List.mem_cons, not_or] at h2
        refine ⟨fun hmem => ?_, h2.2.2⟩
        rcases (mem_insort hs _).mp hmem with heq | hmem2
        · exact h2.2.1 heq
        · exact h2.1 hmem2
      obtain ⟨hsf, hmemf⟩ := ih (insort ps pos) hs1 hrest
      refine ⟨hsf, fun p => ?_⟩
      rw [List.foldl_cons, hmemf, mem_insort hs]
      simp only [List.mem_cons]
      tauto

theorem getElem_mem_take {l : List Nat} {i j : Nat} (hij : i < j)
    (hi : i < l.length) : l[i] ∈ l.take j := by
  have h2 : i < (l.take j).length := by simp; omega
  have heq : (l.take j)[i] = l[i] := by simp [List.getElem_take]
  exact heq ▸ List.getElem_mem h2

theorem add_node_dup {r : Ring} {x : String}
    (h : x ∈ r.node_to_vnodes.map Prod.fst) :
    add_node r x = some (r, some .duplicateNode) := by
  rw [add_node, if_pos h]

theorem add_node_not_dup {r : Ring} {x : String}
    {out : Ring × Option RingError}
    (hx : x ∉ r.node_to_vnodes.map Prod.fst)
    (h : add_node r x = some out) :
    out.2 = none ∧
    ∃ fresh : List Nat,
      fresh.length = r.replicas_per_node ∧
      out.1.replicas_per_node = r.replicas_per_node ∧
      out.1.hash = r.hash ∧
      out.1.replication_factor = r.replication_factor ∧
      out.1.positions = fresh.foldl insort r.positions ∧
      out.1.vnode_to_node =
        r.vnode_to_node ++ fresh.map (fun p => (p, x)) ∧
      out.1.node_to_vnodes = r.node_to_vnodes ++ [(x, fresh)] ∧
      ∀ j, ∀ hj : j < fresh.length,
        ProbeSpec (r.vnode_to_node.map Prod.fst ++ fresh.take j)
          (r.hash (x ++ "#" ++ toString j)) fresh[j] := by
  rw [add_node, if_neg hx] at h
  cases hloop : add_loop r.hash x r.replicas_per_node 0 r.positions
      r.vnode_to_node [] with
  | none => rw [hloop] at h; cases h
  | some st =>
      rw [hloop] at h
      obtain ⟨ps', vn2n', acc'⟩ := st
      injection h with h
      subst h
      obtain ⟨fresh, hlen, hacc, hvn, hps, hspec⟩ :=
        add_loop_spec r.hash x r.replicas_per_node 0 r.positions
          r.vnode_to_node [] (ps', vn2n', acc') hloop
      simp only [List.nil_append] at hacc
      subst hacc
      refine ⟨rfl, acc', hlen, rfl, rfl, rfl, hps, hvn, rfl, ?_⟩
      intro j hj
      simpa using hspec j hj

theorem fresh_facts {r : Ring} {x : String} {fresh : List Nat}
    (hwf : WF r)
    (hspec : ∀ j, ∀ hj : j < fresh.length,
      ProbeSpec (r.vnode_to_node.map Prod.fst ++ fresh.take j)
        (r.hash (x ++ "#" ++ toString j)) fresh[j]) :
    fresh.Nodup ∧
    (∀ p ∈ fresh, p ∉ r.vnode_to_node.map Prod.fst ∧ p ∉ r.positions) ∧
    (∀ j, ∀ hj : j < fresh.length,
      fresh[j] ∉ r.positions ∧ fresh[j] ∉ fresh.take j) := by
  have hfree : ∀ j, ∀ hj : j < fresh.length,
      fresh[j] ∉ r.vnode_to_node.map Prod.fst ∧ fresh[j] ∉ fresh.take j := by
    intro j hj
    have := (hspec j hj).1
    simp only [List.mem_append, not_or] at this
    exact this
  have hnotps : ∀ j, ∀ hj : j < fresh.length, fresh[j] ∉ r.positions := by
    intro j hj hmem
    exact (hfree j hj).1 (hwf.2.2.2.2.1 _ hmem)
  refine ⟨?_, ?_, fun j hj => ⟨hnotps j hj, (hfree j hj).2⟩⟩
  · refine List.pairwise_iff_getElem.mpr (fun i j hi hj hij => ?_)
    intro heq
    exact (hfree j hj).2 (heq ▸ getElem_mem_take hij hi)
  · intro p hp
    obtain ⟨j, hj, rfl⟩ := List.mem_iff_getElem.mp hp
    exact ⟨(hfree j hj).1, hnotps j hj⟩

theorem add_node_wf {r : Ring} {x : String} {out : Ring × Option RingError}
    (hwf : WF r) (h : add_node r x = some out) : WF out.1 := by
  by_cases hx : x ∈ r.node_to_vnodes.map Prod.fst
  · rw [add_node_dup hx] at h
    injection h with h
    subst h
    exact hwf
  · obtain ⟨he, fresh, hlen, hrep, hhash, hrf, hps, hvn, hn2v, hspec⟩ :=
      add_node_not_dup hx h
    obtain ⟨w1, w2, w3, w4, w5, w6, w7, w8, w9, w10⟩ := hwf
    obtain ⟨hnodup, hmemfree, hidxfree⟩ := fresh_facts
      ⟨w1, w2, w3, w4, w5, w6, w7, w8, w9, w10⟩ hspec
    obtain ⟨hsorted', hmem'⟩ := foldl_insort_spec fresh r.positions w3 hidxfree
    have hkeys' : out.1.vnode_to_node.map Prod.fst =
        r.vnode_to_node.map Prod.fst ++ fresh := by
      rw [hvn, List.map_append, keys_map_const]
    have hmemps' : ∀ p, p ∈ out.1.positions ↔ p ∈ r.positions ∨ p ∈ fresh := by
      rw [hps]
      exact hmem'
    refine ⟨hrep ▸ w1, hrf ▸ w2, hps ▸ hsorted', ?_, ?_, ?_, ?_, ?_, ?_, ?_⟩
    · rw [hkeys']
      rw [List.nodup_append]
      refine ⟨w4, hnodup, fun a ha hafresh => ?_⟩
      exact (hmemfree a hafresh).1 ha
    · intro p hp
      rw [hkeys']
      rcases (hmemps' p).mp hp with h' | h'
      · exact List.mem_append_left _ (w5 p h')
      · exact List.mem_append_right _ h'
    · intro q hq
      rw [hvn] at hq
      rw [hmemps' q.1]
      rcases List.mem_append.mp hq with h' | h'
      · exact Or.inl (w6 q h')
      · obtain ⟨p, hpmem, rfl⟩ := List.mem_map.mp h'
        exact Or.inr hpmem
    · rw [hn2v, List.map_append]
      rw [List.nodup_append]
      refine ⟨w7, by simp, fun a ha h1 => ?_⟩
      simp only [List.map_cons, List.map_nil, List.mem_singleton] at h1
      exact hx (h1 ▸ ha)
    · intro e he2
      rw [hn2v] at he2
      rcases List.mem_append.mp he2 with h' | h'
      · obtain ⟨e1, e2, e3⟩ := w8 e h'
        refine ⟨e1, e2, fun p hp => ?_⟩
        rw [hvn]
        exact lookup_append_left _ (e3 p hp)
      · simp only [List.mem_singleton] at h'
        subst h'
        refine ⟨?_, hnodup, fun p hp => ?_⟩
        · intro hnil
          have hfe : fresh = [] := hnil
          rw [hfe] at hlen
          simp at hlen
          omega
        · rw [hvn, lookup_append_right _ (hmemfree p hp).1]
          exact lookup_map_const x hp
    · intro p hp
      rcases (hmemps' p).mp hp with h' | h'
      · obtain ⟨e, he, hpe⟩ := w9 p h'
        exact ⟨e, by rw [hn2v]; exact List.mem_append_left _ he, hpe⟩
      · exact ⟨(x, fresh), by rw [hn2v]; simp, h'⟩
    · intro q hq
      rw [hn2v, List.map_append]
      rw [hvn] at hq
      rcases List.mem_append.mp hq with h' | h'
      · exact List.mem_append_left _ (w10 q h')
      · obtain ⟨p, hpmem, rfl⟩ := List.mem_map.mp h'
        simp

/-! ## `remove_node` -/

theorem value_eq_of_mem_nodup {α β : Type} [BEq α] [LawfulBEq α]
    {l : List (α × β)} (hnd : (l.map Prod.fst).Nodup) {k : α} {v₁ v₂ : β}
    (h₁ : (k, v₁) ∈ l) (h₂ : (k, v₂) ∈ l) : v₁ = v₂ := by
  have e₁ := lookup_of_mem_nodup hnd h₁
  have e₂ := lookup_of_mem_nodup hnd h₂
  rw [e₁] at e₂
  exact Option.some.inj e₂

theorem remove_fold_spec :
    ∀ (vnodes ps : List Nat) (vn2n : List (Nat × String)),
      ps.Sorted (· < ·) → (vn2n.map Prod.fst).Nodup →
      (remove_fold vnodes (ps, vn2n)).1.Sorted (· < ·) ∧
      ((remove_fold vnodes (ps, vn2n)).2.map Prod.fst).Nodup ∧
      (∀ p, p ∈ (remove_fold vnodes (ps, vn2n)).1 ↔
        p ∈ ps ∧ p ∉ vnodes) ∧
      (∀ p, p ∈ (remove_fold vnodes (ps, vn2n)).2.map Prod.fst ↔
        p ∈ vn2n.map Prod.fst ∧ p ∉ vnodes) ∧
      (∀ p, p ∉ vnodes →
        (remove_fold vnodes (ps, vn2n)).2.lookup p = vn2n.lookup p) ∧
      List.Sublist (remove_fold vnodes (ps, vn2n)).2 vn2n := by
  intro vnodes
  induction vnodes with
  | nil =>
      intro ps vn2n hs hnd
      exact ⟨hs, hnd, by simp [remove_fold], by simp [remove_fold],
        fun p _ => rfl, List.Sublist.refl _⟩
  | cons pos rest ih =>
      intro ps vn2n hs hnd
      have hstep : remove_fold (pos :: rest) (ps, vn2n) =
          remove_fold rest (ps.erase pos, vn2n.eraseP (fun q => q.1 == pos)) := by
        rw [remove_fold, List.foldl_cons, ← remove_fold]
        rw [remove_pos_eq_erase hs]
      have hs1 : (ps.erase pos).Sorted (· < ·) :=
        List.Pairwise.sublist (List.erase_sublist pos ps) hs
      have hnd1 : ((vn2n.eraseP (fun q => q.1 == pos)).map Prod.fst).Nodup := by
        rw [keys_eraseP]
        exact hnd.erase pos
      obtain ⟨f1, f2, f3, f4, f5, f6⟩ :=
        ih (ps.erase pos) (vn2n.eraseP (fun q => q.1 == pos)) hs1 hnd1
      rw [hstep]
      refine ⟨f1, f2, fun p => ?_, fun p => ?_, fun p hp => ?_, ?_⟩
      · rw [f3 p, (sorted_nodup hs).mem_erase_iff]
        simp only [List.mem_cons, not_or]
        tauto
      · rw [f4 p, keys_eraseP, hnd.mem_erase_iff]
        simp only [List.mem_cons, not_or]
        tauto
      · simp only [List.mem_cons, not_or] at hp
        rw [f5 p hp.2, lookup_eraseP_ne vn2n hp.1]
      · exact f6.trans (List.eraseP_sublist vn2n)

theorem remove_node_missing {r : Ring} {x : String}
    (h : r.node_to_vnodes.lookup x = none) :
    remove_node r x = (r, some .nodeNotFound) := by
  rw [remove_node, h]

theorem remove_node_wf {r : Ring} {x : String} (hwf : WF r) :
    WF (remove_node r x).1 := by
  obtain ⟨w1, w2, w3, w4, w5, w6, w7, w8, w9, w10⟩ := hwf
  cases hlook : r.node_to_vnodes.lookup x with
  | none => rw [remove_node_missing hlook]; exact ⟨w1, w2, w3, w4, w5, w6, w7, w8, w9, w10⟩
  | some vn =>
      have hxvn : (x, vn) ∈ r.node_to_vnodes := lookup_mem hlook
      obtain ⟨hvnne, hvnnd, howner⟩ := w8 _ hxvn
      obtain ⟨f1, f2, f3, f4, f5, f6⟩ :=
        remove_fold_spec vn r.positions r.vnode_to_node w3 w4
      have hkeys' : ((r.node_to_vnodes.eraseP (fun q => q.1 == x)).map
          Prod.fst) = (r.node_to_vnodes.map Prod.fst).erase x :=
        keys_eraseP r.node_to_vnodes x
      have huniq : ∀ e ∈ r.node_to_vnodes, e.1 = x → e = (x, vn) := by
        intro e he hex
        have he' : (x, e.2) ∈ r.node_to_vnodes := by
          rw [← hex]
          exact he
        have hv : e.2 = vn := value_eq_of_mem_nodup w7 he' hxvn
        rw [← hex, ← hv]
      have hmem_n2v : ∀ e, e ∈ r.node_to_vnodes.eraseP (fun q => q.1 == x) ↔
          e ∈ r.node_to_vnodes ∧ e.1 ≠ x := by
        intro e
        constructor
        · intro he
          have hmem := (List.eraseP_sublist r.node_to_vnodes).mem he
          refine ⟨hmem, fun hex => ?_⟩
          have : e.1 ∈ (r.node_to_vnodes.map Prod.fst).erase x := by
            rw [← hkeys']
            exact List.mem_map_of_mem Prod.fst he
          rw [w7.mem_erase_iff] at this
          exact this.1 hex
        · intro ⟨he, hex⟩
          exact (List.mem_eraseP_of_neg (by simpa using hex)).mpr he
      simp only [remove_node, hlook]
      refine ⟨w1, w2, f1, f2, ?_, ?_, ?_, ?_, ?_, ?_⟩
      · intro p hp
        rcases (f3 p).mp hp with ⟨hps, hnvn⟩
        exact (f4 p).mpr ⟨w5 p hps, hnvn⟩
      · intro q hq
        have hqmem : q ∈ r.vnode_to_node := f6.mem hq
        have hqkey : q.1 ∈ (remove_fold vn (r.positions, r.vnode_to_node)).2.map
            Prod.fst := List.mem_map_of_mem Prod.fst hq
        rcases (f4 q.1).mp hqkey with ⟨_, hnvn⟩
        exact (f3 q.1).mpr ⟨w6 q hqmem, hnvn⟩
      · rw [hkeys']
        exact w7.erase x
      · intro e he
        rcases (hmem_n2v e).mp he with ⟨hmem, hex⟩
        obtain ⟨e1, e2, e3⟩ := w8 e hmem
        refine ⟨e1, e2, fun p hp => ?_⟩
        have hpnvn : p ∉ vn := by
          intro hpvn
          have h1 := howner p hpvn
          have h2 := e3 p hp
          rw [h1] at h2
          injection h2 with h2
          exact hex h2.symm
        rw [f5 p hpnvn]
        exact e3 p hp
      · intro p hp
        rcases (f3 p).mp hp with ⟨hps, hnvn⟩
        obtain ⟨e, he, hpe⟩ := w9 p hps
        have hex : e.1 ≠ x := by
          intro hex
          have := huniq e he hex
          rw [this] at hpe
          exact hnvn hpe
        exact ⟨e, (hmem_n2v e).mpr ⟨he, hex⟩, hpe⟩
      · intro q hq
        have hqmem : q ∈ r.vnode_to_node := f6.mem hq
        have hq2 : q.2 ≠ x := by
          intro hq2
          have hqx : (q.1, x) ∈ r.vnode_to_node := by
            rw [← hq2]
            exact hqmem
          have hpx := lookup_of_mem_nodup w4 hqx
          have hpps : q.1 ∈ r.positions := w6 _ hqmem
          obtain ⟨e, he, hpe⟩ := w9 q.1 hpps
          have he3 := (w8 e he).2.2 q.1 hpe
          rw [hpx] at he3
          have hex : e.1 = x := (Option.some.inj he3).symm
          have hevn : e = (x, vn) := huniq e he hex
          rw [hevn] at hpe
          have hqkey : q.1 ∈ (remove_fold vn
              (r.positions, r.vnode_to_node)).2.map Prod.fst :=
            List.mem_map_of_mem Prod.fst hq
          exact ((f4 q.1).mp hqkey).2 hpe
        rw [hkeys', w7.mem_erase_iff]
        exact ⟨hq2, w10 q hqmem⟩

/-! ## Well-formedness of all reachable states -/

theorem mkRing_wf {n k : Nat} {h : String → Nat} {r : Ring}
    (hmk : mkRing n h k = some r) : WF r := by
  rw [mkRing] at hmk
  by_cases hp : 0 < n ∧ 0 < k
  · rw [if_pos hp] at hmk
    injection hmk with hmk
    subst hmk
    exact ⟨hp.1, hp.2, by simp, by simp, by simp, by simp, by simp, by simp,
      by simp, by simp⟩
  · rw [if_neg hp] at hmk
    cases hmk

theorem reachable_wf {r : Ring} (h : Reachable r) : WF r := by
  induction h with
  | init n h k r hmk => exact mkRing_wf hmk
  | add r x out _ hadd ih => exact add_node_wf ih hadd
  | remove r x _ ih => exact remove_node_wf ih

/-! ## The replica-collection walk -/

theorem mod_add_shift (len a t : Nat) :
    ((a % len) + t) % len = (a + t) % len := by
  conv_rhs => rw [Nat.add_mod]
  conv_lhs => rw [Nat.add_mod]
  simp [Nat.mod_mod_of_dvd]

theorem window_full {len idx j : Nat} (hidx : idx < len) (hj : j < len) :
    ∃ t, t < len ∧ (idx + t) % len = j := by
  rcases le_or_lt idx j with h | h
  · refine ⟨j - idx, by omega, ?_⟩
    have : idx + (j - idx) = j := by omega
    rw [this]
    exact Nat.mod_eq_of_lt hj
  · refine ⟨j + len - idx, by omega, ?_⟩
    have : idx + (j + len - idx) = j + len := by omega
    rw [this, Nat.add_mod_right]
    exact Nat.mod_eq_of_lt hj

theorem collect_exit {nodes chosen seen : List String} {rf : Nat}
    (hcs : chosen = seen) (hsnd : seen.Nodup)
    (hssub : ∀ s ∈ seen, s ∈ nodes) (hsrf : seen.length ≤ rf)
    (hguard : ¬(chosen.length < rf ∧ seen.length < nodes.length)) :
    chosen.Nodup ∧ (∀ c ∈ chosen, c ∈ nodes) ∧
    chosen.length = min rf nodes.length := by
  subst hcs
  have hle : chosen.length ≤ nodes.length :=
    List.Subperm.length_le (List.Nodup.subperm hsnd (fun a ha => hssub a ha))
  rcases not_and_or.mp hguard with hc | hc
  · have h1 : chosen.length = rf := by omega
    refine ⟨hsnd, hssub, ?_⟩
    omega
  · have h1 : chosen.length = nodes.length := by omega
    refine ⟨hsnd, hssub, ?_⟩
    omega

theorem collect_loop_spec (ps : List Nat) (vn2n : List (Nat × String))
    (nodes : List String) (rf : Nat) (hnd : nodes.Nodup)
    (hval : ∀ p ∈ ps, ∃ x, vn2n.lookup p = some x ∧ x ∈ nodes) :
    ∀ fuel idx chosen seen,
      idx < ps.length →
      chosen = seen → seen.Nodup → (∀ s ∈ seen, s ∈ nodes) →
      seen.length ≤ rf →
      (∀ x ∈ nodes, x ∈ seen ∨ ∃ t, t < fuel ∧
        vn2n.lookup (ps.getD ((idx + t) % ps.length) 0) = some x) →
      ∃ l, collect_loop ps vn2n nodes.length rf fuel idx chosen seen = some l ∧
        l.Nodup ∧ (∀ c ∈ l, c ∈ nodes) ∧ l.length = min rf nodes.length := by
  intro fuel
  induction fuel with
  | zero =>
      intro idx chosen seen hidx hcs hsnd hssub hsrf hwin
      rw [collect_loop]
      by_cases hguard : chosen.length < rf ∧ seen.length < nodes.length
      · exfalso
        -- some node is not yet seen, but the window is empty
        by_cases hall : ∀ x ∈ nodes, x ∈ seen
        · have hsub : nodes.length ≤ seen.length := List.Subperm.length_le
            (List.Nodup.subperm hnd (fun a ha => hall a ha))
          omega
        · push_neg at hall
          obtain ⟨x, hxn, hxs⟩ := hall
          rcases hwin x hxn with hin | ⟨t, ht, _⟩
          · exact hxs hin
          · omega
      · rw [if_neg hguard]
        exact ⟨chosen, rfl, collect_exit hcs hsnd hssub hsrf hguard⟩
  | succ fuel ih =>
      intro idx chosen seen hidx hcs hsnd hssub hsrf hwin
      rw [collect_loop]
      by_cases hguard : chosen.length < rf ∧ seen.length < nodes.length
      · rw [if_pos hguard]
        have hlen0 : 0 < ps.length := by omega
        have hpmem : ps.getD idx 0 ∈ ps := by
          rw [List.getD_eq_getElem _ 0 hidx]
          exact List.getElem_mem hidx
        obtain ⟨y, hy, hyn⟩ := hval _ hpmem
        rw [hy]
        dsimp only
        have hidx' : (idx + 1) % ps.length < ps.length := Nat.mod_lt _ hlen0
        have hshift : ∀ t, (idx + (t + 1)) % ps.length =
            ((idx + 1) % ps.length + t) % ps.length := by
          intro t
          rw [mod_add_shift]
          congr 1
          omega
        by_cases hyseen : y ∈ seen
        · rw [if_pos hyseen]
          refine ih ((idx + 1) % ps.length) chosen seen hidx' hcs hsnd hssub
            hsrf (fun x hxn => ?_)
          rcases hwin x hxn with hin | ⟨t, ht, htw⟩
          · exact Or.inl hin
          · cases t with
            | zero =>
                left
                have hidxeq : (idx + 0) % ps.length = idx := by
                  rw [Nat.add_zero]
                  exact Nat.mod_eq_of_lt hidx
                rw [hidxeq, hy] at htw
                injection htw with htw
                rw [← htw]
                exact hyseen
            | succ t =>
                right
                refine ⟨t, by omega, ?_⟩
                rw [← hshift t]
                exact htw
        · rw [if_neg hyseen]
          have hsnd' : (seen ++ [y]).Nodup := by
            rw [List.nodup_append]
            refine ⟨hsnd, by simp, fun a ha hay => ?_⟩
            simp only [List.mem_singleton] at hay
            exact hyseen (hay ▸ ha)
          refine ih ((idx + 1) % ps.length) (chosen ++ [y]) (seen ++ [y]) hidx'
            (by rw [hcs]) hsnd'
            (fun s hs => ?_) ?_ (fun x hxn => ?_)
          · rcases List.mem_append.mp hs with h' | h'
            · exact hssub s h'
            · simp only [List.mem_singleton] at h'
              exact h' ▸ hyn
          · have : chosen.length < rf := hguard.1
            rw [hcs] at this
            simp only [List.length_append, List.length_singleton]
            omega
          · rcases hwin x hxn with hin | ⟨t, ht, htw⟩
            · exact Or.inl (List.mem_append_left _ hin)
            · cases t with
              | zero =>
                  left
                  have hidxeq : (idx + 0) % ps.length = idx := by
                    rw [Nat.add_zero]
                    exact Nat.mod_eq_of_lt hidx
                  rw [hidxeq, hy] at htw
                  injection htw with htw
                  rw [← htw]
                  simp
              | succ t =>
                  right
                  refine ⟨t, by omega, ?_⟩
                  rw [← hshift t]
                  exact htw
      · rw [if_neg hguard]
        exact ⟨chosen, rfl, collect_exit hcs hsnd hssub hsrf hguard⟩

/-! ## Placement queries on well-formed rings -/

theorem find_vnode_index_lt {r : Ring} {kh : Nat}
    (hs : r.positions.Sorted (· < ·)) (hne : r.positions ≠ []) :
    ∃ idx, find_vnode_index r kh = .ok idx ∧ idx < r.positions.length := by
  rw [find_vnode_index, if_neg hne]
  refine ⟨_, rfl, ?_⟩
  have hble := (bisect_left_spec r.positions kh hs).1
  have hpos : 0 < r.positions.length := List.length_pos.mpr hne
  by_cases h : bisect_left r.positions kh = r.positions.length
  · rw [if_pos h]
    omega
  · rw [if_neg h]
    omega

theorem get_nodes_for_key_spec {r : Ring} (key : String) (hwf : WF r)
    (hne : r.positions ≠ []) :
    ∃ l, get_nodes_for_key r key = .ok l ∧ l.Nodup ∧
      (∀ c ∈ l, c ∈ r.node_to_vnodes.map Prod.fst) ∧
      l.length = min r.replication_factor r.node_to_vnodes.length := by
  obtain ⟨w1, w2, w3, w4, w5, w6, w7, w8, w9, w10⟩ := hwf
  obtain ⟨idx, hfind, hidx⟩ := find_vnode_index_lt w3 hne
  rw [get_nodes_for_key, if_neg hne, hfind]
  have hval : ∀ p ∈ r.positions, ∃ x, r.vnode_to_node.lookup p = some x ∧
      x ∈ r.node_to_vnodes.map Prod.fst := by
    intro p hp
    obtain ⟨v, hv⟩ := lookup_isSome_of_mem_keys (w5 p hp)
    exact ⟨v, hv, w10 _ (lookup_mem hv)⟩
  have hwin : ∀ x ∈ r.node_to_vnodes.map Prod.fst,
      x ∈ ([] : List String) ∨ ∃ t, t < r.positions.length ∧
      r.vnode_to_node.lookup
        (r.positions.getD ((idx + t) % r.positions.length) 0) = some x := by
    intro x hx
    right
    obtain ⟨e, he, rfl⟩ := List.mem_map.mp hx
    obtain ⟨hne', hnd', hown⟩ := w8 e he
    obtain ⟨p, hp⟩ := List.exists_mem_of_ne_nil _ hne'
    have hlp := hown p hp
    have hpps : p ∈ r.positions := w6 _ (lookup_mem hlp)
    obtain ⟨j, hj, hjp⟩ := List.mem_iff_getElem.mp hpps
    obtain ⟨t, ht, hteq⟩ := window_full hidx hj
    refine ⟨t, ht, ?_⟩
    rw [hteq, List.getD_eq_getElem _ 0 hj, hjp]
    exact hlp
  have hmain := collect_loop_spec r.positions r.vnode_to_node
    (r.node_to_vnodes.map Prod.fst) r.replication_factor w7 hval
    r.positions.length idx [] [] hidx rfl (by simp) (by simp) (by simp) hwin
  rw [List.length_map] at hmain
  obtain ⟨l, hl, hlnd, hlsub, hllen⟩ := hmain
  dsimp only
  rw [hl]
  exact ⟨l, rfl, hlnd, hlsub, hllen⟩

theorem nodes_nonempty {r : Ring} (hwf : WF r) (hne : r.positions ≠ []) :
    0 < r.node_to_vnodes.length := by
  obtain ⟨w1, w2, w3, w4, w5, w6, w7, w8, w9, w10⟩ := hwf
  obtain ⟨p, hp⟩ := List.exists_mem_of_ne_nil _ hne
  obtain ⟨v, hv⟩ := lookup_isSome_of_mem_keys (w5 p hp)
  have hmem := w10 _ (lookup_mem hv)
  have hlen := List.length_pos.mpr (List.ne_nil_of_mem hmem)
  rwa [List.length_map] at hlen

theorem get_primary_node_spec {r : Ring} (key : String) (hwf : WF r)
    (hne : r.positions ≠ []) :
    ∃ n, get_primary_node r key = .ok n ∧
      n ∈ r.node_to_vnodes.map Prod.fst := by
  obtain ⟨l, hl, hlnd, hlsub, hllen⟩ := get_nodes_for_key_spec key hwf hne
  have hrf : 0 < r.replication_factor := hwf.2.1
  have hn2v : 0 < r.node_to_vnodes.length := nodes_nonempty hwf hne
  have hlep : 0 < l.length := by
    rw [hllen]
    exact Nat.lt_min.mpr ⟨hrf, hn2v⟩
  cases l with
  | nil => simp at hlep
  | cons a t =>
      rw [get_primary_node, hl]
      exact ⟨a, rfl, hlsub a (by simp)⟩

/-! ## Analytics loops -/

theorem counter_incr_sum (d : List (String × Nat)) (x : String) :
    ((counter_incr d x).map Prod.snd).sum = (d.map Prod.snd).sum + 1 := by
  induction d with
  | nil => simp [counter_incr]
  | cons q rest ih =>
      obtain ⟨k, c⟩ := q
      by_cases h : k = x
      · simp only [counter_incr, if_pos h, List.map_cons, List.sum_cons]
        omega
      · simp only [counter_incr, if_neg h, List.map_cons, List.sum_cons, ih]
        omega

theorem key_distribution_loop_spec {r : Ring} (hwf : WF r)
    (hne : r.positions ≠ []) :
    ∀ keys dist, ∃ d, key_distribution_loop r keys dist = .ok d ∧
      (d.map Prod.snd).sum = (dist.map Prod.snd).sum + keys.length := by
  intro keys
  induction keys with
  | nil =>
      intro dist
      exact ⟨dist, rfl, by simp⟩
  | cons k ks ih =>
      intro dist
      obtain ⟨n, hn, _⟩ := get_primary_node_spec k hwf hne
      obtain ⟨d, hd, hsum⟩ := ih (counter_incr dist n)
      refine ⟨d, ?_, ?_⟩
      · rw [key_distribution_loop, hn]
        exact hd
      · rw [hsum, counter_incr_sum]
        simp only [List.length_cons]
        omega

theorem moved_loop_spec {r : Ring} (hwf : WF r) (hne : r.positions ≠ [])
    (old_mapping : List (String × String)) :
    ∀ keys moved total,
      ∃ mt, moved_loop r old_mapping keys moved total = .ok mt ∧
        mt.1 = moved + keys.countP (fun k => moved_key r old_mapping k) ∧
        mt.2 = total + keys.length := by
  intro keys
  induction keys with
  | nil =>
      intro moved total
      exact ⟨(moved, total), rfl, by simp, by simp⟩
  | cons k ks ih =>
      intro moved total
      obtain ⟨n, hn, _⟩ := get_primary_node_spec k hwf hne
      have hmk : moved_key r old_mapping k =
          !(old_mapping.lookup k == some n) := by
        rw [moved_key, hn]
      by_cases hc : old_mapping.lookup k = some n
      · obtain ⟨mt, hmt, h1, h2⟩ := ih moved (total + 1)
        refine ⟨mt, ?_, ?_, ?_⟩
        · rw [moved_loop, hn]
          dsimp only
          rw [if_pos hc]
          exact hmt
        · rw [h1, List.countP_cons]
          have : moved_key r old_mapping k = false := by
            rw [hmk, hc]
            simp
          rw [this]
          simp
        · rw [h2, List.length_cons]
          omega
      · obtain ⟨mt, hmt, h1, h2⟩ := ih (moved + 1) (total + 1)
        refine ⟨mt, ?_, ?_, ?_⟩
        · rw [moved_loop, hn]
          dsimp only
          rw [if_neg hc]
          exact hmt
        · rw [h1, List.countP_cons]
          have : moved_key r old_mapping k = true := by
            rw [hmk]
            simpa using hc
          rw [this]
          simp
          omega
        · rw [h2, List.length_cons]
          omega

theorem positions_nonempty {r : Ring} (hwf : WF r)
    (hne : r.node_to_vnodes ≠ []) : r.positions ≠ [] := by
  obtain ⟨w1, w2, w3, w4, w5, w6, w7, w8, w9, w10⟩ := hwf
  obtain ⟨e, he⟩ := List.exists_mem_of_ne_nil _ hne
  obtain ⟨he1, he2, he3⟩ := w8 e he
  obtain ⟨p, hp⟩ := List.exists_mem_of_ne_nil _ he1
  exact List.ne_nil_of_mem (w6 _ (lookup_mem (he3 p hp)))

theorem mkRing_fields {n k : Nat} {h : String → Nat} {r : Ring}
    (hmk : mkRing n h k = some r) :
    r.positions = [] ∧ r.vnode_to_node = [] ∧ r.node_to_vnodes = [] ∧
    r.replicas_per_node = n ∧ r.hash = h ∧ r.replication_factor = k := by
  rw [mkRing] at hmk
  by_cases hp : 0 < n ∧ 0 < k
  · rw [if_pos hp] at hmk
    injection hmk with hmk
    subst hmk
    exact ⟨rfl, rfl, rfl, rfl, rfl, rfl⟩
  · rw [if_neg hp] at hmk
    cases hmk

/-! ## The claims -/

/-- C1: for every well-formed ring with at least one registered node (hence
at least one virtual node) and every key, `get_nodes_for_key(key)` returns a
sequence whose length equals `min(replication_factor, number of distinct
physical nodes registered in node_to_vnodes)`. -/
theorem C1_bounded_replication (r : Ring) (key : String) (hwf : WF r)
    (hne : r.node_to_vnodes ≠ []) :
    ∃ l, get_nodes_for_key r key = .ok l ∧
      l.length = min r.replication_factor r.node_to_vnodes.length := by
  obtain ⟨l, hl, _, _, hlen⟩ :=
    get_nodes_for_key_spec key hwf (positions_nonempty hwf hne)
  exact ⟨l, hl, hlen⟩

theorem C1_witness :
    ∃ l, get_nodes_for_key sampleRing "k" = .ok l ∧
      l.length = min sampleRing.replication_factor
        sampleRing.node_to_vnodes.length :=
  C1_bounded_replication sampleRing "k" (by decide) (by decide)

/-- C2: every ring state reachable from a freshly constructed ring by any
sequence of operations satisfies the structural invariant: `positions` is
strictly increasing with no duplicates, its elements are exactly the keys of
`vnode_to_node`, the union of the `node_to_vnodes` lists is exactly the set
of positions, and a node identifier is registered in `node_to_vnodes` iff it
occurs as a value of `vnode_to_node`. -/
theorem C2_reachable_invariant (r : Ring) (hr : Reachable r) :
    r.positions.Sorted (· < ·) ∧ r.positions.Nodup ∧
    (∀ p, p ∈ r.positions ↔ p ∈ r.vnode_to_node.map Prod.fst) ∧
    (∀ p, (∃ e ∈ r.node_to_vnodes, p ∈ e.2) ↔ p ∈ r.positions) ∧
    (∀ x, x ∈ r.node_to_vnodes.map Prod.fst ↔
      x ∈ r.vnode_to_node.map Prod.snd) := by
  obtain ⟨w1, w2, w3, w4, w5, w6, w7, w8, w9, w10⟩ := reachable_wf hr
  refine ⟨w3, sorted_nodup w3, fun p => ⟨w5 p, fun hp => ?_⟩,
    fun p => ⟨fun he => ?_, w9 p⟩, fun x => ⟨fun hx => ?_, fun hx => ?_⟩⟩
  · obtain ⟨v, hv⟩ := lookup_isSome_of_mem_keys hp
    exact w6 _ (lookup_mem hv)
  · obtain ⟨e, he, hpe⟩ := he
    exact w6 _ (lookup_mem ((w8 e he).2.2 p hpe))
  · obtain ⟨e, he, rfl⟩ := List.mem_map.mp hx
    obtain ⟨he1, he2, he3⟩ := w8 e he
    obtain ⟨p, hp⟩ := List.exists_mem_of_ne_nil _ he1
    exact List.mem_map_of_mem Prod.snd (lookup_mem (he3 p hp))
  · obtain ⟨q, hq, rfl⟩ := List.mem_map.mp hx
    exact w10 q hq

theorem C2_witness :
    addedSample.positions.Sorted (· < ·) ∧ addedSample.positions.Nodup ∧
    (∀ p, p ∈ addedSample.positions ↔
      p ∈ addedSample.vnode_to_node.map Prod.fst) ∧
    (∀ p, (∃ e ∈ addedSample.node_to_vnodes, p ∈ e.2) ↔
      p ∈ addedSample.positions) ∧
    (∀ x, x ∈ addedSample.node_to_vnodes.map Prod.fst ↔
      x ∈ addedSample.vnode_to_node.map Prod.snd) :=
  C2_reachable_invariant addedSample
    (Reachable.add emptySample "A" (addedSample, none)
      (Reachable.init 1 sampleHash 1 emptySample rfl) rfl)

/-- C3: on a (sorted) non-empty `positions` list, `_find_vnode_index`
returns the smallest index whose position is `≥ key_hash`, wrapping to index
0 when `key_hash` exceeds every position; on an empty `positions` list it
fails with the EmptyRing condition. -/
theorem C3_find_vnode_index (r : Ring) (kh : Nat)
    (hs : r.positions.Sorted (· < ·)) :
    (r.positions = [] → find_vnode_index r kh = .error .emptyRing) ∧
    (r.positions ≠ [] →
      ∃ idx, find_vnode_index r kh = .ok idx ∧
        ((idx < r.positions.length ∧ kh ≤ r.positions.getD idx 0 ∧
            ∀ j, j < idx → r.positions.getD j 0 < kh) ∨
          ((∀ j, j < r.positions.length → r.positions.getD j 0 < kh) ∧
            idx = 0))) := by
  constructor
  · intro hnil
    rw [find_vnode_index, if_pos hnil]
  · intro hne
    obtain ⟨hble, hbefore, hafter⟩ := bisect_left_spec r.positions kh hs
    simp only [find_vnode_index, if_neg hne]
    by_cases h : bisect_left r.positions kh = r.positions.length
    · rw [if_pos h]
      exact ⟨0, rfl, Or.inr ⟨fun j hj => hbefore j (by omega), rfl⟩⟩
    · rw [if_neg h]
      refine ⟨_, rfl, Or.inl ⟨by omega, ?_, hbefore⟩⟩
      exact hafter _ (le_refl _) (by omega)

theorem C3_witness :
    (sampleRing.positions = [] →
      find_vnode_index sampleRing 4 = .error .emptyRing) ∧
    (sampleRing.positions ≠ [] →
      ∃ idx, find_vnode_index sampleRing 4 = .ok idx ∧
        ((idx < sampleRing.positions.length ∧
            4 ≤ sampleRing.positions.getD idx 0 ∧
            ∀ j, j < idx → sampleRing.positions.getD j 0 < 4) ∨
          ((∀ j, j < sampleRing.positions.length →
              sampleRing.positions.getD j 0 < 4) ∧ idx = 0))) :=
  C3_find_vnode_index sampleRing 4 (by decide)

/-- C4: `add_node` on an already-registered identifier fails with the
DuplicateNode condition returning the state exactly unchanged, and
`remove_node` on an unregistered identifier fails with the NodeNotFound
condition returning the state exactly unchanged. -/
theorem C4_duplicate_and_missing (r : Ring) (x : String) :
    (x ∈ r.node_to_vnodes.map Prod.fst →
      add_node r x = some (r, some .duplicateNode)) ∧
    (x ∉ r.node_to_vnodes.map Prod.fst →
      remove_node r x = (r, some .nodeNotFound)) := by
  refine ⟨add_node_dup, fun hx => ?_⟩
  apply remove_node_missing
  rw [lookup_eq_none_iff]
  exact hx

theorem C4_witness :
    add_node sampleRing "A" = some (sampleRing, some .duplicateNode) ∧
    remove_node sampleRing "Z" = (sampleRing, some .nodeNotFound) :=
  ⟨(C4_duplicate_and_missing sampleRing "A").1 (by decide),
   (C4_duplicate_and_missing sampleRing "Z").2 (by decide)⟩

/-- C5: after a successful `add_node(x)` on a ring where `x` was not yet
registered, `x` owns exactly `replicas_per_node` virtual positions: its
`node_to_vnodes` list has that length, every position in it maps to `x` in
`vnode_to_node`, and the `i`-th position is the hash of `"{x}#{i}"` advanced
by `+1 mod 2^64` past occupied positions until free (linear probing). -/
theorem C5_add_node_probing (r : Ring) (x : String) (r' : Ring)
    (hx : x ∉ r.node_to_vnodes.map Prod.fst)
    (hadd : add_node r x = some (r', none)) :
    ∃ vn, r'.node_to_vnodes.lookup x = some vn ∧
      vn.length = r.replicas_per_node ∧
      (∀ p ∈ vn, r'.vnode_to_node.lookup p = some x) ∧
      ∀ i, ∀ hi : i < vn.length,
        ProbeSpec (r.vnode_to_node.map Prod.fst ++ vn.take i)
          (r.hash (x ++ "#" ++ toString i)) vn[i] := by
  obtain ⟨he, fresh, hlen, hrep, hhash, hrf, hps, hvn, hn2v, hspec⟩ :=
    add_node_not_dup hx hadd
  refine ⟨fresh, ?_, hlen, fun p hp => ?_, hspec⟩
  · rw [hn2v, lookup_append_right _ hx]
    simp [List.lookup]
  · obtain ⟨j, hj, rfl⟩ := List.mem_iff_getElem.mp hp
    have hfree := (hspec j hj).1
    simp only [List.mem_append, not_or] at hfree
    rw [hvn, lookup_append_right _ hfree.1]
    exact lookup_map_const x hp

theorem C5_witness :
    (("A" ∉ emptySample.node_to_vnodes.map Prod.fst) ∧
      ∃ vn, addedSample.node_to_vnodes.lookup "A" = some vn ∧
        vn.length = emptySample.replicas_per_node ∧
        (∀ p ∈ vn, addedSample.vnode_to_node.lookup p = some "A") ∧
        ∀ i, ∀ hi : i < vn.length,
          ProbeSpec (emptySample.vnode_to_node.map Prod.fst ++ vn.take i)
            (emptySample.hash ("A" ++ "#" ++ toString i)) vn[i]) :=
  ⟨by decide, C5_add_node_probing emptySample "A" addedSample (by decide) rfl⟩

/-- C6: `moved_keys_ratio` returns exactly 0 on an empty key list without
raising, and on a well-formed non-empty ring returns
`movedCount / totalKeys`, a rational in `[0, 1]`, where a key counts as
moved iff `old_mapping` has no entry for it or its entry differs from the
key's current primary node. -/
theorem C6_moved_ratio (r : Ring) (keys : List String)
    (old_mapping : List (String × String)) :
    (keys = [] → moved_keys_ratio r keys old_mapping = .ok 0) ∧
    (WF r → r.positions ≠ [] →
      ∃ q, moved_keys_ratio r keys old_mapping = .ok q ∧
        q = (keys.countP (fun k => moved_key r old_mapping k) : ℚ) /
          (keys.length : ℚ) ∧
        0 ≤ q ∧ q ≤ 1) := by
  constructor
  · intro hnil
    subst hnil
    rfl
  · intro hwf hne
    obtain ⟨mt, hmt, h1, h2⟩ := moved_loop_spec hwf hne old_mapping keys 0 0
    rw [ moved_keys_ratio, hmt]
    dsimp only
    simp only [Nat.zero_add] at h1 h2
    by_cases hk : keys = []
    · subst hk
      rw [h1, h2]
      simp
    · have hkl : keys.length ≠ 0 := by
        simpa using fun h => hk (List.eq_nil_of_length_eq_zero h)
      rw [if_neg (h2 ▸ hkl), h1, h2]
      have hcle : keys.countP (fun k => moved_key r old_mapping k) ≤
          keys.length := List.countP_le_length _
      refine ⟨_, rfl, rfl, ?_, ?_⟩
      · positivity
      · rw [div_le_one (by exact_mod_cast Nat.pos_of_ne_zero hkl)]
        exact_mod_cast hcle

theorem C6_witness :
    ( moved_keys_ratio sampleRing [] [] = .ok 0) ∧
    (∃ q, moved_keys_ratio sampleRing ["k"] [] = .ok q ∧
      q = ((["k"].countP (fun k => moved_key sampleRing [] k) : ℚ) /
        ((["k"] : List String).length : ℚ)) ∧
      0 ≤ q ∧ q ≤ 1) :=
  ⟨(C6_moved_ratio sampleRing [] []).1 rfl,
   (C6_moved_ratio sampleRing ["k"] []).2 (by decide) (by decide)⟩

/-- C7: on a well-formed non-empty ring, the counts in
`key_distribution(keys)` sum to the number of keys, for any (possibly empty,
possibly repeating) key list. -/
theorem C7_distribution_sum (r : Ring) (keys : List String) (hwf : WF r)
    (hne : r.positions ≠ []) :
    ∃ d, key_distribution r keys = .ok d ∧
      (d.map Prod.snd).sum = keys.length := by
  obtain ⟨d, hd, hsum⟩ := key_distribution_loop_spec hwf hne keys []
  refine ⟨d, hd, ?_⟩
  simpa using hsum

theorem C7_witness :
    ∃ d, key_distribution sampleRing ["a", "b", "a"] = .ok d ∧
      (d.map Prod.snd).sum = (["a", "b", "a"] : List String).length :=
  C7_distribution_sum sampleRing ["a", "b", "a"] (by decide) (by decide)

/-- C8: on a well-formed non-empty ring, the entries of
`get_nodes_for_key(key)` are pairwise distinct registered physical node
identifiers. -/
theorem C8_distinct_replicas (r : Ring) (key : String) (hwf : WF r)
    (hne : r.positions ≠ []) :
    ∃ l, get_nodes_for_key r key = .ok l ∧ l.Nodup ∧
      ∀ c ∈ l, c ∈ r.node_to_vnodes.map Prod.fst := by
  obtain ⟨l, hl, hnd, hsub, _⟩ := get_nodes_for_key_spec key hwf hne
  exact ⟨l, hl, hnd, hsub⟩

theorem C8_witness :
    ∃ l, get_nodes_for_key sampleRing "xy" = .ok l ∧ l.Nodup ∧
      ∀ c ∈ l, c ∈ sampleRing.node_to_vnodes.map Prod.fst :=
  C8_distinct_replicas sampleRing "xy" (by decide) (by decide)

/-- C9: `get_primary_node` on a freshly constructed (zero-node) ring fails
with the EmptyRing condition for every key, and after one successful
`add_node(x)` it succeeds on every key, returning `x`. -/
theorem C9_empty_then_first_add (n k : Nat) (h : String → Nat) (r₀ : Ring)
    (hmk : mkRing n h k = some r₀) :
    (∀ key, get_primary_node r₀ key = .error .emptyRing) ∧
    (∀ x r₁, add_node r₀ x = some (r₁, none) →
      ∀ key, get_primary_node r₁ key = .ok x) := by
  obtain ⟨hp0, hv0, hn0, hrepl, hhash, hrf⟩ := mkRing_fields hmk
  have hwf₀ : WF r₀ := mkRing_wf hmk
  constructor
  · intro key
    rw [get_primary_node, get_nodes_for_key, if_pos hp0]
  · intro x r₁ hadd key
    have hx : x ∉ r₀.node_to_vnodes.map Prod.fst := by
      rw [hn0]
      simp
    have hwf₁ : WF r₁ := add_node_wf hwf₀ hadd
    obtain ⟨he, fresh, hlen, hrep, hhash1, hrf1, hps, hvn, hn2v, hspec⟩ :=
      add_node_not_dup hx hadd
    have hn2v1 : r₁.node_to_vnodes = [(x, fresh)] := by
      rw [hn2v, hn0]
      rfl
    have hne₁ : r₁.positions ≠ [] :=
      positions_nonempty hwf₁ (by rw [hn2v1]; simp)
    obtain ⟨node, hnode, hnodemem⟩ := get_primary_node_spec key hwf₁ hne₁
    rw [hn2v1] at hnodemem
    simp only [List.map_cons, List.map_nil, List.mem_singleton] at hnodemem
    rw [hnode, hnodemem]

theorem C9_witness :
    get_primary_node emptySample "k" = .error .emptyRing ∧
    get_primary_node addedSample "k" = .ok "A" :=
  ⟨(C9_empty_then_first_add 1 1 sampleHash emptySample rfl).1 "k",
   (C9_empty_then_first_add 1 1 sampleHash emptySample rfl).2 "A"
     addedSample rfl "k"⟩

/-- C10: for a fixed ring state, the result of `get_nodes_for_key` depends
on the key only through its hash: two keys with equal hash values receive
identical node sequences. -/
theorem C10_hash_determines_placement (r : Ring) (k₁ k₂ : String)
    (h : r.hash k₁ = r.hash k₂) :
    get_nodes_for_key r k₁ = get_nodes_for_key r k₂ := by
  rw [get_nodes_for_key, get_nodes_for_key, h]

theorem C10_witness :
    get_nodes_for_key sampleRing "ab" = get_nodes_for_key sampleRing "cd" :=
  C10_hash_determines_placement sampleRing "ab" "cd" rfl

end HashRing
